import Mathlib

/-!
Verification of the chess legality engine in `LowLevelDesign/Chess/Chess.py`.

The embedding mirrors the Python source: positions are pairs of integers,
the board owns a list of pieces together with a king-position index per
color, and the game applies a move to the live board only after the
simulate-then-validate check `_try_move` succeeds.  Python exceptions
(absent source piece in `execute_move`, malformed text in `int(...)`)
are modelled with `Option`.
-/

namespace Chess

/-- Piece color; the Python code uses the closed string domain
`Piece.WHITE = "white"` / `Piece.BLACK = "black"`. -/
inductive Color where
  | white
  | black
deriving DecidableEq

/-- The closed set of piece variants (`PieceType` in `constants.py`,
one constructor per `Piece` subclass in the source). -/
inductive PieceType where
  | king
  | queen
  | knight
  | rook
  | bishop
  | pawn
deriving DecidableEq

/-- `ChessPosition`: an integer pair; `__eq__` is component-wise. -/
structure ChessPosition where
  x_coord : Int
  y_coord : Int
deriving DecidableEq

/-- A piece: variant tag, color, current position, and the pawn's
has-moved flag (`Pawn._moved`; `false` and unused for other variants). -/
structure Piece where
  ptype : PieceType
  color : Color
  position : ChessPosition
  moved : Bool
deriving DecidableEq

/-- `ChessBoard`: size, the owned piece list, and the king-position index
(`_white_king_position` / `_black_king_position`, `None` until a king
registers). -/
structure ChessBoard where
  size : Int
  pieces : List Piece
  white_king_position : Option ChessPosition
  black_king_position : Option ChessPosition
deriving DecidableEq

/-- `ChessBoard.get_piece`: first piece in the list whose position equals
`pos`, else `None`. -/
def get_piece (b : ChessBoard) (pos : ChessPosition) : Option Piece :=
  b.pieces.find? (fun p => p.position == pos)

/-- Loop body of `ChessBoard.beam_search_threat`, with explicit fuel.
Each unit of fuel pays for one bounds check of the Python `while` loop;
for a direction with `increment_x ≠ 0` or `increment_y ≠ 0` the loop runs
at most `size` in-bounds iterations, so the fuel supplied by
`beam_search_threat` is never exhausted (a `(0, 0)` direction, which would
loop forever in Python, is never passed by any piece). -/
def beam_aux (b : ChessBoard) (own_color : Color) (increment_x increment_y : Int) :
    Nat → Int → Int → List ChessPosition
  | 0, _, _ => []
  | fuel + 1, curr_x, curr_y =>
    if 0 ≤ curr_x ∧ 0 ≤ curr_y ∧ curr_x < b.size ∧ curr_y < b.size then
      let curr_position : ChessPosition := ⟨curr_x, curr_y⟩
      match get_piece b curr_position with
      | some curr_piece =>
        if curr_piece.color ≠ own_color then [curr_position] else []
      | none =>
        curr_position :: beam_aux b own_color increment_x increment_y fuel
          (curr_x + increment_x) (curr_y + increment_y)
    else []

/-- `ChessBoard.beam_search_threat`: walk from `start + increment`
repeatedly adding the increment while in bounds; append each empty square
and continue; on the first occupied square append it only if the occupant
is an enemy, then stop. -/
def beam_search_threat (b : ChessBoard) (start_position : ChessPosition) (own_color : Color)
    (increment_x increment_y : Int) : List ChessPosition :=
  beam_aux b own_color increment_x increment_y (b.size.toNat + 1)
    (start_position.x_coord + increment_x) (start_position.y_coord + increment_y)

/-- `ChessBoard.spot_search_threat`: examine the single square
`start + increment`.  Out of bounds: `None`.  Occupied: `None` under
`free_only`, else the square iff the occupant is an enemy.  Empty: `None`
under `threat_only`, else the square. -/
def spot_search_threat (b : ChessBoard) (start_position : ChessPosition) (own_color : Color)
    (increment_x increment_y : Int) (threat_only free_only : Bool) :
    Option ChessPosition :=
  let curr_x := start_position.x_coord + increment_x
  let curr_y := start_position.y_coord + increment_y
  if b.size ≤ curr_x ∨ b.size ≤ curr_y ∨ curr_x < 0 ∨ curr_y < 0 then none
  else
    let curr_position : ChessPosition := ⟨curr_x, curr_y⟩
    match get_piece b curr_position with
    | some curr_piece =>
      if free_only then none
      else if curr_piece.color ≠ own_color then some curr_position else none
    | none => if threat_only then none else some curr_position

def King_SPOT_INCREMENTS : List (Int × Int) :=
  [(1, -1), (1, 0), (1, 1), (0, 1), (-1, 1), (-1, 0), (-1, -1), (0, -1)]

def Queen_BEAM_INCREMENTS : List (Int × Int) :=
  [(1, 1), (1, -1), (-1, 1), (-1, -1), (0, 1), (0, -1), (1, 0), (-1, 0)]

def Knight_SPOT_INCREMENTS : List (Int × Int) :=
  [(2, 1), (2, -1), (-2, 1), (-2, -1), (1, 2), (1, -2), (-1, 2), (-1, -2)]

def Rook_BEAM_INCREMENTS : List (Int × Int) :=
  [(0, 1), (0, -1), (1, 0), (-1, 0)]

def Bishop_BEAM_INCREMENTS : List (Int × Int) :=
  [(1, 1), (1, -1), (-1, 1), (-1, -1)]

def Pawn_SPOT_INCREMENTS_MOVE : List (Int × Int) := [(0, 1)]

def Pawn_SPOT_INCREMENTS_MOVE_FIRST : List (Int × Int) := [(0, 1), (0, 2)]

def Pawn_SPOT_INCREMENTS_TAKE : List (Int × Int) := [(-1, 1), (1, 1)]

/-- The pawn's color-mirrored y increment:
`increment[1] if color == WHITE else (-1) * increment[1]`. -/
def pawn_dir_y (c : Color) (dy : Int) : Int :=
  if c = Color.white then dy else -dy

/-- `get_threatened_positions` of each `Piece` subclass, dispatched on the
variant tag.  King/knight: spot probes over the offset table, `None`s
filtered out.  Queen/rook/bishop: concatenated beam scans.  Pawn: the two
forward-diagonal take offsets probed in normal mode (no `threat_only`). -/
def get_threatened_positions (b : ChessBoard) (p : Piece) : List ChessPosition :=
  match p.ptype with
  | PieceType.king =>
    (King_SPOT_INCREMENTS.map
      (fun d => spot_search_threat b p.position p.color d.1 d.2 false false)).reduceOption
  | PieceType.queen =>
    (Queen_BEAM_INCREMENTS.map
      (fun d => beam_search_threat b p.position p.color d.1 d.2)).flatten
  | PieceType.knight =>
    (Knight_SPOT_INCREMENTS.map
      (fun d => spot_search_threat b p.position p.color d.1 d.2 false false)).reduceOption
  | PieceType.rook =>
    (Rook_BEAM_INCREMENTS.map
      (fun d => beam_search_threat b p.position p.color d.1 d.2)).flatten
  | PieceType.bishop =>
    (Bishop_BEAM_INCREMENTS.map
      (fun d => beam_search_threat b p.position p.color d.1 d.2)).flatten
  | PieceType.pawn =>
    (Pawn_SPOT_INCREMENTS_TAKE.map
      (fun d => spot_search_threat b p.position p.color d.1 (pawn_dir_y p.color d.2)
        false false)).reduceOption

/-- `get_moveable_positions`: equal to the threatened positions for every
variant except the pawn, which probes its forward offsets with
`free_only` (one step, plus two steps if it has never moved) followed by
its take offsets with `threat_only`, then filters out the `None`s. -/
def get_moveable_positions (b : ChessBoard) (p : Piece) : List ChessPosition :=
  match p.ptype with
  | PieceType.pawn =>
    ((if p.moved then Pawn_SPOT_INCREMENTS_MOVE else Pawn_SPOT_INCREMENTS_MOVE_FIRST).map
        (fun d => spot_search_threat b p.position p.color d.1 (pawn_dir_y p.color d.2)
          false true)
      ++ Pawn_SPOT_INCREMENTS_TAKE.map
        (fun d => spot_search_threat b p.position p.color d.1 (pawn_dir_y p.color d.2)
          true false)).reduceOption
  | _ => get_threatened_positions b p

/-- `Piece.move` / `Pawn.move`: relocate the piece; a pawn's has-moved
flag flips to `True` (the king's extra registration step is board state
and is performed by `execute_move`). -/
def piece_move (p : Piece) (target_position : ChessPosition) : Piece :=
  ⟨p.ptype, p.color, target_position,
    if p.ptype = PieceType.pawn then true else p.moved⟩

/-- `ChessBoard.register_king_position`: upsert the king index.  The
`RuntimeError` branch for an unrecognized color is unreachable here
because `Color` is a closed two-value type. -/
def register_king_position (b : ChessBoard) (pos : ChessPosition) (c : Color) : ChessBoard :=
  match c with
  | Color.white => ⟨b.size, b.pieces, some pos, b.black_king_position⟩
  | Color.black => ⟨b.size, b.pieces, b.white_king_position, some pos⟩

/-- Delete the first piece whose position equals `pos`
(the `for idx, target_piece in enumerate(...): del ... break` loop of
`execute_move`). -/
def erase_first_at (l : List Piece) (pos : ChessPosition) : List Piece :=
  match l with
  | [] => []
  | p :: rest => if p.position = pos then rest else p :: erase_first_at rest pos

/-- Replace the first piece whose position equals `pos` by `f` of it. -/
def update_first_at (l : List Piece) (pos : ChessPosition) (f : Piece → Piece) : List Piece :=
  match l with
  | [] => []
  | p :: rest =>
    if p.position = pos then f p :: rest else p :: update_first_at rest pos f

/-- `MoveCommand`: a source/destination pair of positions. -/
structure MoveCommand where
  src : ChessPosition
  dst : ChessPosition
deriving DecidableEq

/-- `ChessBoard.execute_move`: look up the (first) piece at the source,
delete the first piece at the destination (capture), then relocate the
source piece.  `none` models the `AttributeError` Python would raise when
no piece is at the source (`None.move`).  When `src = dst` the deleted
piece *is* the source piece: Python then mutates an object no longer on
the board, so the piece list keeps only the deletion; a king still
performs its registration callback in that case.  Performs no legality
checking. -/
def execute_result (b : ChessBoard) (command : MoveCommand) (source_piece : Piece) :
    ChessBoard :=
  let ps1 := erase_first_at b.pieces command.dst
  let ps2 :=
    if command.src = command.dst then ps1
    else update_first_at ps1 command.src (fun p => piece_move p command.dst)
  let b1 : ChessBoard := ⟨b.size, ps2, b.white_king_position, b.black_king_position⟩
  if source_piece.ptype = PieceType.king then
    register_king_position b1 command.dst source_piece.color
  else b1

def execute_move (b : ChessBoard) (command : MoveCommand) : Option ChessBoard :=
  match get_piece b command.src with
  | none => none
  | some source_piece => some (execute_result b command source_piece)

/-- Python `int(...)` applied to the row text of a square, modelled for
plain decimal digit strings (the only form the algebraic notation
exercises); on anything else — in particular the empty string and
non-digit text — Python raises `ValueError`, modelled as `none`. -/
def parse_decimal (s : String) : Option Int :=
  if s.length ≠ 0 ∧ s.data.all Char.isDigit then
    some (s.data.foldl (fun acc c => acc * 10 + ((c.toNat : Int) - 48)) 0)
  else none

/-- `ChessPosition.from_string`: `ord(s[0]) - ord("a")` for the column and
`int(s[1:]) - 1` for the row.  There is no bounds check of any kind;
`none` models only the exceptions (empty string, non-numeric row). -/
def ChessPosition.from_string (s : String) : Option ChessPosition :=
  match s.data with
  | [] => none
  | c0 :: rest =>
    match parse_decimal (String.mk rest) with
    | none => none
    | some n => some ⟨(c0.toNat : Int) - (('a' : Char).toNat : Int), n - 1⟩

/-- Python's `string.split(" ")`: split on every single space, keeping
empty tokens (so `""` gives `[""]` and a double space yields an empty
token in between). -/
def split_spaces (l : List Char) : List String :=
  (l.foldr
    (fun c acc =>
      if c = ' ' then [] :: acc
      else
        match acc with
        | t :: rest => (c :: t) :: rest
        | [] => [[c]])
    [[]]).map String.mk

/-- `MoveCommand.from_string`: split on a single space; fail unless there
are exactly two tokens; parse both positions (a position-parsing failure,
an exception in Python, yields no command). -/
def MoveCommand.from_string (s : String) : Option MoveCommand :=
  match split_spaces s.data with
  | [t0, t1] =>
    match ChessPosition.from_string t0, ChessPosition.from_string t1 with
    | some src, some dst => some ⟨src, dst⟩
    | _, _ => none
  | _ => none

/-- The game status strings of `ChessGame`. -/
inductive GameStatus where
  | white_move
  | black_move
  | white_victory
  | black_victory
deriving DecidableEq

/-- Python's `king_position in threatened_list` test for an optional king
position.  The `none` branch is modelled as `false`; in Python a `None`
king position against a nonempty list would raise inside
`ChessPosition.__eq__`, but `ChessBoard` always registers both kings at
construction, so that branch is unreachable during play. -/
def opt_mem (o : Option ChessPosition) (l : List ChessPosition) : Bool :=
  match o with
  | some p => decide (p ∈ l)
  | none => false

/-- `ChessGame._try_move`: validate `command` against a simulation copy of
`board` (value semantics make the copy the board itself).  Reject when the
source square is empty, when the source color does not match the side to
move, or when the destination is in neither the moveable nor the
threatened squares; otherwise apply the move to the copy and reject iff
some remaining piece then threatens the moving side's king position.  The
`execute_move` failure branch is unreachable: the source piece was just
found. -/
def try_move (board : ChessBoard) (status : GameStatus) (command : MoveCommand) : Bool :=
  match get_piece board command.src with
  | none => false
  | some src_piece =>
    if (status = GameStatus.white_move ∧ src_piece.color = Color.black) ∨
        (status = GameStatus.black_move ∧ src_piece.color = Color.white) then false
    else if command.dst ∉ get_moveable_positions board src_piece ∧
        command.dst ∉ get_threatened_positions board src_piece then false
    else
      match execute_move board command with
      | none => false
      | some board_copy =>
        board_copy.pieces.all (fun piece =>
          !((status == GameStatus.white_move &&
              opt_mem board_copy.white_king_position
                (get_threatened_positions board_copy piece)) ||
            (status == GameStatus.black_move &&
              opt_mem board_copy.black_king_position
                (get_threatened_positions board_copy piece))))

/-- The side-to-move flip at the end of `ChessGame.run`'s loop body:
white to black, black to white, victory statuses untouched. -/
def flip_status : GameStatus → GameStatus
  | GameStatus.white_move => GameStatus.black_move
  | GameStatus.black_move => GameStatus.white_move
  | s => s

/-- The game: the live board plus the turn status. -/
structure ChessGame where
  board : ChessBoard
  status : GameStatus
deriving DecidableEq

/-- One loop iteration of `ChessGame.run` for an already parsed command:
if `_try_move` rejects, nothing changes (the loop re-prompts); otherwise
the same move is applied to the live board and the status flips.  The
`execute_move` failure branch is unreachable since `try_move` succeeded. -/
def step_command (g : ChessGame) (command : MoveCommand) : ChessGame :=
  if try_move g.board g.status command then
    match execute_move g.board command with
    | some b2 => ⟨b2, flip_status g.status⟩
    | none => g
  else g

/-- One loop iteration of `ChessGame.run` from a raw input line: an
unparsable line leaves the game unchanged (re-prompt). -/
def game_step (g : ChessGame) (line : String) : ChessGame :=
  match MoveCommand.from_string line with
  | none => g
  | some command => step_command g command

def CHESS_BOARD_SIZE : Int := 8

/-- Modelled from the spec: `INITIAL_PIECE_SET_SINGLE` lives in the
repository's `constants.py`, which is not under `src/`.  Per the spec the
initial layout is the standard chess opening position; this is the white
half of it (back rank then pawns), which `place_pieces` mirrors for black
exactly as `_initialize_pieces` does. -/
def INITIAL_PIECE_SET_SINGLE : List (PieceType × Int × Int) :=
  [(PieceType.rook, 0, 0), (PieceType.knight, 1, 0), (PieceType.bishop, 2, 0),
   (PieceType.queen, 3, 0), (PieceType.king, 4, 0), (PieceType.bishop, 5, 0),
   (PieceType.knight, 6, 0), (PieceType.rook, 7, 0),
   (PieceType.pawn, 0, 1), (PieceType.pawn, 1, 1), (PieceType.pawn, 2, 1),
   (PieceType.pawn, 3, 1), (PieceType.pawn, 4, 1), (PieceType.pawn, 5, 1),
   (PieceType.pawn, 6, 1), (PieceType.pawn, 7, 1)]

/-- Append one freshly created piece (`PieceFactory.create`); a king
registers its position on construction (`set_board_handle`). -/
def add_piece (b : ChessBoard) (t : PieceType) (pos : ChessPosition) (c : Color) : ChessBoard :=
  let b1 : ChessBoard :=
    ⟨b.size, b.pieces ++ [⟨t, c, pos, false⟩], b.white_king_position, b.black_king_position⟩
  if t = PieceType.king then register_king_position b1 pos c else b1

/-- `ChessBoard._initialize_pieces`: for each tuple of the setup, place
the white piece at `(x, y)` and the black piece mirrored at
`(size - x - 1, size - y - 1)`. -/
def place_pieces (b : ChessBoard) (setup : List (PieceType × Int × Int)) : ChessBoard :=
  setup.foldl (fun acc tup =>
    let acc1 := add_piece acc tup.1 ⟨tup.2.1, tup.2.2⟩ Color.white
    add_piece acc1 tup.1 ⟨acc1.size - tup.2.1 - 1, acc1.size - tup.2.2 - 1⟩ Color.black) b

/-- `ChessBoard.__init__` with the default size. -/
def ChessBoard.new : ChessBoard :=
  place_pieces ⟨CHESS_BOARD_SIZE, [], none, none⟩ INITIAL_PIECE_SET_SINGLE

/-- `ChessGame.__init__`: fresh board, white to move. -/
def initial_game : ChessGame :=
  ⟨ChessBoard.new, GameStatus.white_move⟩

/-- The game states reachable by `ChessGame.run`: the initial state, and
anything obtained by processing one (parsed) move request. -/
inductive ReachableGame : ChessGame → Prop
  | init : ReachableGame initial_game
  | step (g : ChessGame) (command : MoveCommand) :
      ReachableGame g → ReachableGame (step_command g command)

/-- A square lies on the board. -/
def in_bounds (b : ChessBoard) (q : ChessPosition) : Prop :=
  0 ≤ q.x_coord ∧ q.x_coord < b.size ∧ 0 ≤ q.y_coord ∧ q.y_coord < b.size

instance (b : ChessBoard) (q : ChessPosition) : Decidable (in_bounds b q) := by
  unfold in_bounds; exact inferInstance

/-- The moving side's king entry in the index, as read by the
king-safety scan of `_try_move`. -/
def king_index_of_status (b : ChessBoard) (status : GameStatus) : Option ChessPosition :=
  match status with
  | GameStatus.white_move => b.white_king_position
  | GameStatus.black_move => b.black_king_position
  | _ => none

/-- The king index entry of a color. -/
def king_index (b : ChessBoard) (c : Color) : Option ChessPosition :=
  match c with
  | Color.white => b.white_king_position
  | Color.black => b.black_king_position

/-- The placement invariant: at most one piece per square. -/
def distinct_positions (l : List Piece) : Prop :=
  (l.map Piece.position).Nodup

instance (l : List Piece) : Decidable (distinct_positions l) := by
  unfold distinct_positions; exact inferInstance

/-- The in-bounds squares along a ray, ignoring occupancy (same fuel
discipline as `beam_aux`). -/
def ray_aux (b : ChessBoard) (increment_x increment_y : Int) :
    Nat → Int → Int → List ChessPosition
  | 0, _, _ => []
  | fuel + 1, curr_x, curr_y =>
    if 0 ≤ curr_x ∧ 0 ≤ curr_y ∧ curr_x < b.size ∧ curr_y < b.size then
      (⟨curr_x, curr_y⟩ : ChessPosition) ::
        ray_aux b increment_x increment_y fuel
          (curr_x + increment_x) (curr_y + increment_y)
    else []

/-- Modelled from the spec: "exactly the squares up to (and not beyond)
the board edge" along a direction — the ordered in-bounds squares
`start + k * increment`, `k ≥ 1`, stopping at the edge. -/
def ray_squares (b : ChessBoard) (start_position : ChessPosition)
    (increment_x increment_y : Int) : List ChessPosition :=
  ray_aux b increment_x increment_y (b.size.toNat + 1)
    (start_position.x_coord + increment_x) (start_position.y_coord + increment_y)

/-- The king-index invariant: every king on the board is exactly where
its color's index entry says it is. -/
def KingInv (b : ChessBoard) : Prop :=
  ∀ p ∈ b.pieces, p.ptype = PieceType.king → king_index b p.color = some p.position

instance (b : ChessBoard) : Decidable (KingInv b) := by
  unfold KingInv; exact inferInstance

/-- Concrete fixture: White king e1, White rook e2, Black king d8, Black
rook e8 — moving the White rook off the e-file exposes the White king. -/
def pin_board : ChessBoard :=
  ⟨8,
    [⟨PieceType.king, Color.white, ⟨4, 0⟩, false⟩,
     ⟨PieceType.rook, Color.white, ⟨4, 1⟩, false⟩,
     ⟨PieceType.king, Color.black, ⟨3, 7⟩, false⟩,
     ⟨PieceType.rook, Color.black, ⟨4, 7⟩, false⟩],
    some ⟨4, 0⟩, some ⟨3, 7⟩⟩

/-- Concrete fixture: White king e1, White pawn e2, Black king d8; the
square f3 is empty. -/
def diag_board : ChessBoard :=
  ⟨8,
    [⟨PieceType.king, Color.white, ⟨4, 0⟩, false⟩,
     ⟨PieceType.pawn, Color.white, ⟨4, 1⟩, false⟩,
     ⟨PieceType.king, Color.black, ⟨3, 7⟩, false⟩],
    some ⟨4, 0⟩, some ⟨3, 7⟩⟩

/-- Concrete fixture: a never-moved White pawn at e2 whose one-step
square e3 is blocked by a Black knight, while e4 is free. -/
def blocked_board : ChessBoard :=
  ⟨8,
    [⟨PieceType.pawn, Color.white, ⟨4, 1⟩, false⟩,
     ⟨PieceType.knight, Color.black, ⟨4, 2⟩, false⟩],
    none, none⟩

/-- Concrete fixture: a board with no pieces at all. -/
def empty_board : ChessBoard := ⟨8, [], none, none⟩

/-! ### Facts about the two geometric search primitives -/

/-- `spot_search_threat` with its local bindings expanded. -/
theorem spot_eq_def (b : ChessBoard) (start : ChessPosition) (c : Color) (ix iy : Int)
    (t f : Bool) :
    spot_search_threat b start c ix iy t f =
      (if b.size ≤ start.x_coord + ix ∨ b.size ≤ start.y_coord + iy ∨
          start.x_coord + ix < 0 ∨ start.y_coord + iy < 0 then none
       else
         match get_piece b ⟨start.x_coord + ix, start.y_coord + iy⟩ with
         | some piece =>
           if f then none
           else if piece.color ≠ c then
             some ⟨start.x_coord + ix, start.y_coord + iy⟩
           else none
         | none =>
           if t then none else some ⟨start.x_coord + ix, start.y_coord + iy⟩) := rfl

/-- In-bounds case, occupied square. -/
theorem spot_eq_occ (b : ChessBoard) (start : ChessPosition) (c : Color) (ix iy : Int)
    (t f : Bool) (piece : Piece)
    (hb : ¬(b.size ≤ start.x_coord + ix ∨ b.size ≤ start.y_coord + iy ∨
      start.x_coord + ix < 0 ∨ start.y_coord + iy < 0))
    (hg : get_piece b ⟨start.x_coord + ix, start.y_coord + iy⟩ = some piece) :
    spot_search_threat b start c ix iy t f =
      (if f then none
       else if piece.color ≠ c then some ⟨start.x_coord + ix, start.y_coord + iy⟩
       else none) := by
  rw [spot_eq_def, if_neg hb, hg]

/-- In-bounds case, empty square. -/
theorem spot_eq_empty (b : ChessBoard) (start : ChessPosition) (c : Color) (ix iy : Int)
    (t f : Bool)
    (hb : ¬(b.size ≤ start.x_coord + ix ∨ b.size ≤ start.y_coord + iy ∨
      start.x_coord + ix < 0 ∨ start.y_coord + iy < 0))
    (hg : get_piece b ⟨start.x_coord + ix, start.y_coord + iy⟩ = none) :
    spot_search_threat b start c ix iy t f =
      (if t then none else some ⟨start.x_coord + ix, start.y_coord + iy⟩) := by
  rw [spot_eq_def, if_neg hb, hg]

theorem spot_some_eq (b : ChessBoard) (start : ChessPosition) (c : Color) (ix iy : Int)
    (t f : Bool) (q : ChessPosition)
    (h : spot_search_threat b start c ix iy t f = some q) :
    q = ⟨start.x_coord + ix, start.y_coord + iy⟩ ∧ in_bounds b q := by
  by_cases hb : b.size ≤ start.x_coord + ix ∨ b.size ≤ start.y_coord + iy ∨
      start.x_coord + ix < 0 ∨ start.y_coord + iy < 0
  · rw [spot_eq_def, if_pos hb] at h
    exact absurd h (by simp)
  · have hq : q = (⟨start.x_coord + ix, start.y_coord + iy⟩ : ChessPosition) := by
      cases hg : get_piece b ⟨start.x_coord + ix, start.y_coord + iy⟩ with
      | some piece =>
        rw [spot_eq_occ b start c ix iy t f piece hb hg] at h
        split_ifs at h with h1 h2
        · exact (Option.some_inj.mp h).symm
      | none =>
        rw [spot_eq_empty b start c ix iy t f hb hg] at h
        split_ifs at h with h1
        exact (Option.some_inj.mp h).symm
    subst hq
    push_neg at hb
    exact ⟨rfl, hb.2.2.1, hb.1, hb.2.2.2, hb.2.1⟩

/-- `free_only` mode: the square is returned exactly when it is on the
board and empty. -/
theorem spot_free_only_iff (b : ChessBoard) (start : ChessPosition) (c : Color)
    (ix iy : Int) (q : ChessPosition) :
    spot_search_threat b start c ix iy false true = some q ↔
      q = ⟨start.x_coord + ix, start.y_coord + iy⟩ ∧ in_bounds b q ∧
        get_piece b q = none := by
  constructor
  · intro h
    obtain ⟨hq, hin⟩ := spot_some_eq b start c ix iy false true q h
    have hb : ¬(b.size ≤ start.x_coord + ix ∨ b.size ≤ start.y_coord + iy ∨
        start.x_coord + ix < 0 ∨ start.y_coord + iy < 0) := by
      subst hq
      have hin2 : 0 ≤ start.x_coord + ix ∧ start.x_coord + ix < b.size ∧
          0 ≤ start.y_coord + iy ∧ start.y_coord + iy < b.size := hin
      omega
    refine ⟨hq, hin, ?_⟩
    subst hq
    cases hg : get_piece b ⟨start.x_coord + ix, start.y_coord + iy⟩ with
    | some piece =>
      rw [spot_eq_occ b start c ix iy false true piece hb hg] at h
      simp at h
    | none => rfl
  · rintro ⟨hq, hin, hg⟩
    have hb : ¬(b.size ≤ start.x_coord + ix ∨ b.size ≤ start.y_coord + iy ∨
        start.x_coord + ix < 0 ∨ start.y_coord + iy < 0) := by
      subst hq
      have hin2 : 0 ≤ start.x_coord + ix ∧ start.x_coord + ix < b.size ∧
          0 ≤ start.y_coord + iy ∧ start.y_coord + iy < b.size := hin
      omega
    subst hq
    rw [spot_eq_empty b start c ix iy false true hb hg]
    simp

/-- `threat_only` mode: the square is returned exactly when it is on the
board and occupied by an enemy. -/
theorem spot_threat_only_iff (b : ChessBoard) (start : ChessPosition) (c : Color)
    (ix iy : Int) (q : ChessPosition) :
    spot_search_threat b start c ix iy true false = some q ↔
      q = ⟨start.x_coord + ix, start.y_coord + iy⟩ ∧ in_bounds b q ∧
        ∃ e, get_piece b q = some e ∧ e.color ≠ c := by
  constructor
  · intro h
    obtain ⟨hq, hin⟩ := spot_some_eq b start c ix iy true false q h
    have hb : ¬(b.size ≤ start.x_coord + ix ∨ b.size ≤ start.y_coord + iy ∨
        start.x_coord + ix < 0 ∨ start.y_coord + iy < 0) := by
      subst hq
      have hin2 : 0 ≤ start.x_coord + ix ∧ start.x_coord + ix < b.size ∧
          0 ≤ start.y_coord + iy ∧ start.y_coord + iy < b.size := hin
      omega
    refine ⟨hq, hin, ?_⟩
    subst hq
    cases hg : get_piece b ⟨start.x_coord + ix, start.y_coord + iy⟩ with
    | some piece =>
      rw [spot_eq_occ b start c ix iy true false piece hb hg] at h
      by_cases hc : piece.color = c
      · simp [hc] at h
      · exact ⟨piece, rfl, hc⟩
    | none =>
      rw [spot_eq_empty b start c ix iy true false hb hg] at h
      simp at h
  · rintro ⟨hq, hin, e, hg, hc⟩
    have hb : ¬(b.size ≤ start.x_coord + ix ∨ b.size ≤ start.y_coord + iy ∨
        start.x_coord + ix < 0 ∨ start.y_coord + iy < 0) := by
      subst hq
      have hin2 : 0 ≤ start.x_coord + ix ∧ start.x_coord + ix < b.size ∧
          0 ≤ start.y_coord + iy ∧ start.y_coord + iy < b.size := hin
      omega
    subst hq
    rw [spot_eq_occ b start c ix iy true false e hb hg]
    simp [hc]

/-- `beam_aux` at positive fuel, with its local binding expanded. -/
theorem beam_aux_succ (b : ChessBoard) (c : Color) (ix iy : Int) (n : Nat) (cx cy : Int) :
    beam_aux b c ix iy (n + 1) cx cy =
      (if 0 ≤ cx ∧ 0 ≤ cy ∧ cx < b.size ∧ cy < b.size then
        match get_piece b ⟨cx, cy⟩ with
        | some piece =>
          if piece.color ≠ c then [(⟨cx, cy⟩ : ChessPosition)] else []
        | none =>
          (⟨cx, cy⟩ : ChessPosition) :: beam_aux b c ix iy n (cx + ix) (cy + iy)
      else []) := rfl

theorem beam_aux_succ_oob (b : ChessBoard) (c : Color) (ix iy : Int) (n : Nat) (cx cy : Int)
    (hb : ¬(0 ≤ cx ∧ 0 ≤ cy ∧ cx < b.size ∧ cy < b.size)) :
    beam_aux b c ix iy (n + 1) cx cy = [] := by
  rw [beam_aux_succ, if_neg hb]

theorem beam_aux_succ_occ (b : ChessBoard) (c : Color) (ix iy : Int) (n : Nat) (cx cy : Int)
    (piece : Piece) (hb : 0 ≤ cx ∧ 0 ≤ cy ∧ cx < b.size ∧ cy < b.size)
    (hg : get_piece b ⟨cx, cy⟩ = some piece) :
    beam_aux b c ix iy (n + 1) cx cy =
      (if piece.color ≠ c then [(⟨cx, cy⟩ : ChessPosition)] else []) := by
  rw [beam_aux_succ, if_pos hb, hg]

theorem beam_aux_succ_empty (b : ChessBoard) (c : Color) (ix iy : Int) (n : Nat) (cx cy : Int)
    (hb : 0 ≤ cx ∧ 0 ≤ cy ∧ cx < b.size ∧ cy < b.size)
    (hg : get_piece b ⟨cx, cy⟩ = none) :
    beam_aux b c ix iy (n + 1) cx cy =
      (⟨cx, cy⟩ : ChessPosition) :: beam_aux b c ix iy n (cx + ix) (cy + iy) := by
  rw [beam_aux_succ, if_pos hb, hg]

theorem beam_aux_mem_bounds (b : ChessBoard) (c : Color) (ix iy : Int) :
    ∀ (n : Nat) (cx cy : Int) (q : ChessPosition),
      q ∈ beam_aux b c ix iy n cx cy → in_bounds b q := by
  intro n
  induction n with
  | zero => intro cx cy q hq; simp [beam_aux] at hq
  | succ n ih =>
    intro cx cy q hq
    by_cases hb : 0 ≤ cx ∧ 0 ≤ cy ∧ cx < b.size ∧ cy < b.size
    · cases hg : get_piece b ⟨cx, cy⟩ with
      | some piece =>
        rw [beam_aux_succ_occ b c ix iy n cx cy piece hb hg] at hq
        split_ifs at hq with hc
        · simp only [List.mem_singleton] at hq
          subst hq
          exact ⟨hb.1, hb.2.2.1, hb.2.1, hb.2.2.2⟩
        · simp at hq
      | none =>
        rw [beam_aux_succ_empty b c ix iy n cx cy hb hg] at hq
        simp only [List.mem_cons] at hq
        cases hq with
        | inl h => subst h; exact ⟨hb.1, hb.2.2.1, hb.2.1, hb.2.2.2⟩
        | inr h => exact ih (cx + ix) (cy + iy) q h
    · rw [beam_aux_succ_oob b c ix iy n cx cy hb] at hq
      simp at hq

theorem beam_mem_bounds (b : ChessBoard) (start : ChessPosition) (c : Color)
    (ix iy : Int) (q : ChessPosition)
    (h : q ∈ beam_search_threat b start c ix iy) : in_bounds b q :=
  beam_aux_mem_bounds b c ix iy _ _ _ q h

/-- Fuel does not matter once it covers the remaining x-distance to the
board edge (the Python loop needs no fuel at all; this shows the chosen
fuel is not observable). -/
theorem beam_aux_fuel_x (b : ChessBoard) (c : Color) (ix iy : Int) (hix : ix ≠ 0) :
    ∀ (n : Nat) (cx cy : Int), (0 < ix → b.size - cx ≤ (n : Int)) →
      (ix < 0 → cx + 1 ≤ (n : Int)) →
      beam_aux b c ix iy n cx cy = beam_aux b c ix iy (n + 1) cx cy := by
  intro n
  induction n with
  | zero =>
    intro cx cy h1 h2
    have hoob : ¬(0 ≤ cx ∧ 0 ≤ cy ∧ cx < b.size ∧ cy < b.size) := by
      rcases hix.lt_or_lt with h | h
      · have := h2 h; omega
      · have := h1 h; omega
    rw [beam_aux, beam_aux_succ_oob b c ix iy 0 cx cy hoob]
  | succ n ih =>
    intro cx cy h1 h2
    by_cases hb : 0 ≤ cx ∧ 0 ≤ cy ∧ cx < b.size ∧ cy < b.size
    · cases hg : get_piece b ⟨cx, cy⟩ with
      | some piece =>
        rw [beam_aux_succ_occ b c ix iy n cx cy piece hb hg,
          beam_aux_succ_occ b c ix iy (n + 1) cx cy piece hb hg]
      | none =>
        rw [beam_aux_succ_empty b c ix iy n cx cy hb hg,
          beam_aux_succ_empty b c ix iy (n + 1) cx cy hb hg]
        refine congrArg _ (ih (cx + ix) (cy + iy) ?_ ?_)
        · intro h; have := h1 h; omega
        · intro h; have := h2 h; omega
    · rw [beam_aux_succ_oob b c ix iy n cx cy hb,
        beam_aux_succ_oob b c ix iy n.succ cx cy hb]

/-- Fuel does not matter once it covers the remaining y-distance to the
board edge. -/
theorem beam_aux_fuel_y (b : ChessBoard) (c : Color) (ix iy : Int) (hiy : iy ≠ 0) :
    ∀ (n : Nat) (cx cy : Int), (0 < iy → b.size - cy ≤ (n : Int)) →
      (iy < 0 → cy + 1 ≤ (n : Int)) →
      beam_aux b c ix iy n cx cy = beam_aux b c ix iy (n + 1) cx cy := by
  intro n
  induction n with
  | zero =>
    intro cx cy h1 h2
    have hoob : ¬(0 ≤ cx ∧ 0 ≤ cy ∧ cx < b.size ∧ cy < b.size) := by
      rcases hiy.lt_or_lt with h | h
      · have := h2 h; omega
      · have := h1 h; omega
    rw [beam_aux, beam_aux_succ_oob b c ix iy 0 cx cy hoob]
  | succ n ih =>
    intro cx cy h1 h2
    by_cases hb : 0 ≤ cx ∧ 0 ≤ cy ∧ cx < b.size ∧ cy < b.size
    · cases hg : get_piece b ⟨cx, cy⟩ with
      | some piece =>
        rw [beam_aux_succ_occ b c ix iy n cx cy piece hb hg,
          beam_aux_succ_occ b c ix iy (n + 1) cx cy piece hb hg]
      | none =>
        rw [beam_aux_succ_empty b c ix iy n cx cy hb hg,
          beam_aux_succ_empty b c ix iy (n + 1) cx cy hb hg]
        refine congrArg _ (ih (cx + ix) (cy + iy) ?_ ?_)
        · intro h; have := h1 h; omega
        · intro h; have := h2 h; omega
    · rw [beam_aux_succ_oob b c ix iy n cx cy hb,
        beam_aux_succ_oob b c ix iy n.succ cx cy hb]

/-- On a direction containing no pieces, the beam scan visits exactly the
in-bounds ray squares. -/
theorem beam_aux_eq_ray_aux (b : ChessBoard) (c : Color) (ix iy : Int) :
    ∀ (n : Nat) (cx cy : Int),
      (∀ q ∈ ray_aux b ix iy n cx cy, get_piece b q = none) →
      beam_aux b c ix iy n cx cy = ray_aux b ix iy n cx cy := by
  intro n
  induction n with
  | zero => intro cx cy _; rw [beam_aux, ray_aux]
  | succ n ih =>
    intro cx cy hfree
    by_cases hb : 0 ≤ cx ∧ 0 ≤ cy ∧ cx < b.size ∧ cy < b.size
    · rw [ray_aux, if_pos hb] at hfree ⊢
      have hg : get_piece b ⟨cx, cy⟩ = none :=
        hfree ⟨cx, cy⟩ (List.mem_cons_self _ _)
      rw [beam_aux_succ_empty b c ix iy n cx cy hb hg]
      refine congrArg _ (ih (cx + ix) (cy + iy) ?_)
      intro q hq
      exact hfree q (List.mem_cons_of_mem _ hq)
    · rw [ray_aux, if_neg hb, beam_aux_succ_oob b c ix iy n cx cy hb]

/-- Every threatened square lies on the board. -/
theorem mem_threatened_in_bounds (b : ChessBoard) (p : Piece) (q : ChessPosition)
    (h : q ∈ get_threatened_positions b p) : in_bounds b q := by
  obtain ⟨pt, pc, ppos, pm⟩ := p
  cases pt <;>
    simp only [get_threatened_positions, List.reduceOption_mem_iff, List.mem_map,
      List.mem_flatten] at h
  case king =>
    obtain ⟨d, _, hd⟩ := h
    exact (spot_some_eq b ppos pc d.1 d.2 false false q hd).2
  case queen =>
    obtain ⟨s, ⟨d, _, hd⟩, hq⟩ := h
    exact beam_mem_bounds b ppos pc d.1 d.2 q (hd ▸ hq)
  case knight =>
    obtain ⟨d, _, hd⟩ := h
    exact (spot_some_eq b ppos pc d.1 d.2 false false q hd).2
  case rook =>
    obtain ⟨s, ⟨d, _, hd⟩, hq⟩ := h
    exact beam_mem_bounds b ppos pc d.1 d.2 q (hd ▸ hq)
  case bishop =>
    obtain ⟨s, ⟨d, _, hd⟩, hq⟩ := h
    exact beam_mem_bounds b ppos pc d.1 d.2 q (hd ▸ hq)
  case pawn =>
    obtain ⟨d, _, hd⟩ := h
    exact (spot_some_eq b ppos pc d.1 (pawn_dir_y pc d.2) false false q hd).2

/-- Every moveable square lies on the board. -/
theorem mem_moveable_in_bounds (b : ChessBoard) (p : Piece) (q : ChessPosition)
    (h : q ∈ get_moveable_positions b p) : in_bounds b q := by
  obtain ⟨pt, pc, ppos, pm⟩ := p
  cases pt
  case pawn =>
    simp only [get_moveable_positions, List.reduceOption_mem_iff, List.mem_append,
      List.mem_map] at h
    cases h with
    | inl h =>
      obtain ⟨d, _, hd⟩ := h
      exact (spot_some_eq b ppos pc d.1 (pawn_dir_y pc d.2) false true q hd).2
    | inr h =>
      obtain ⟨d, _, hd⟩ := h
      exact (spot_some_eq b ppos pc d.1 (pawn_dir_y pc d.2) true false q hd).2
  case king => exact mem_threatened_in_bounds b ⟨PieceType.king, pc, ppos, pm⟩ q h
  case queen => exact mem_threatened_in_bounds b ⟨PieceType.queen, pc, ppos, pm⟩ q h
  case knight => exact mem_threatened_in_bounds b ⟨PieceType.knight, pc, ppos, pm⟩ q h
  case rook => exact mem_threatened_in_bounds b ⟨PieceType.rook, pc, ppos, pm⟩ q h
  case bishop => exact mem_threatened_in_bounds b ⟨PieceType.bishop, pc, ppos, pm⟩ q h

/-! ### Facts about `execute_move` and the board invariants -/

theorem get_piece_some (b : ChessBoard) (pos : ChessPosition) (s : Piece)
    (h : get_piece b pos = some s) : s ∈ b.pieces ∧ s.position = pos := by
  refine ⟨List.mem_of_find?_eq_some h, ?_⟩
  have := List.find?_some h
  simpa using this

theorem erase_first_at_sublist (l : List Piece) (pos : ChessPosition) :
    List.Sublist (erase_first_at l pos) l := by
  induction l with
  | nil => simp [erase_first_at]
  | cons p rest ih =>
    rw [erase_first_at]
    by_cases hp : p.position = pos
    · rw [if_pos hp]
      exact List.sublist_cons_of_sublist p (List.Sublist.refl rest)
    · rw [if_neg hp]
      exact List.Sublist.cons₂ p ih

theorem mem_erase_first_at (l : List Piece) (pos : ChessPosition) (q : Piece)
    (h : q ∈ erase_first_at l pos) : q ∈ l :=
  (erase_first_at_sublist l pos).mem h

/-- Under the placement invariant, deleting the first piece at a square
leaves no piece at that square. -/
theorem mem_erase_first_at_pos_ne (l : List Piece) (pos : ChessPosition)
    (hnd : (l.map Piece.position).Nodup) (q : Piece)
    (h : q ∈ erase_first_at l pos) : q.position ≠ pos := by
  induction l with
  | nil => simp [erase_first_at] at h
  | cons p rest ih =>
    rw [List.map_cons, List.nodup_cons] at hnd
    rw [erase_first_at] at h
    by_cases hp : p.position = pos
    · rw [if_pos hp] at h
      intro hq
      apply hnd.1
      have hmem : q.position ∈ List.map Piece.position rest :=
        List.mem_map_of_mem Piece.position h
      rwa [hq, ← hp] at hmem
    · rw [if_neg hp] at h
      rcases List.mem_cons.mp h with hqp | hq
      · subst hqp; exact hp
      · exact ih hnd.2 hq

theorem mem_update_first_at_weak (l : List Piece) (t : ChessPosition) (f : Piece → Piece)
    (q : Piece) (h : q ∈ update_first_at l t f) :
    q ∈ l ∨ ∃ p, p ∈ l ∧ q = f p := by
  induction l with
  | nil => simp [update_first_at] at h
  | cons p rest ih =>
    rw [update_first_at] at h
    by_cases hp : p.position = t
    · rw [if_pos hp] at h
      rcases List.mem_cons.mp h with hq | hq
      · exact Or.inr ⟨p, List.mem_cons_self p rest, hq⟩
      · exact Or.inl (List.mem_cons_of_mem p hq)
    · rw [if_neg hp] at h
      rcases List.mem_cons.mp h with hq | hq
      · exact Or.inl (hq ▸ List.mem_cons_self p rest)
      · rcases ih hq with h1 | ⟨p1, hp1, hq1⟩
        · exact Or.inl (List.mem_cons_of_mem p h1)
        · exact Or.inr ⟨p1, List.mem_cons_of_mem p hp1, hq1⟩

/-- Under the placement invariant, a member of the updated list is either
an untouched piece not at the updated square, or the image of the (then
unique) piece at that square. -/
theorem mem_update_first_at_cases (l : List Piece) (t : ChessPosition) (f : Piece → Piece)
    (hnd : (l.map Piece.position).Nodup) (q : Piece) (h : q ∈ update_first_at l t f) :
    (q ∈ l ∧ q.position ≠ t) ∨ (∃ p, p ∈ l ∧ p.position = t ∧ q = f p) := by
  induction l with
  | nil => simp [update_first_at] at h
  | cons p rest ih =>
    rw [List.map_cons, List.nodup_cons] at hnd
    rw [update_first_at] at h
    by_cases hp : p.position = t
    · rw [if_pos hp] at h
      rcases List.mem_cons.mp h with hq | hq
      · exact Or.inr ⟨p, List.mem_cons_self p rest, hp, hq⟩
      · refine Or.inl ⟨List.mem_cons_of_mem p hq, ?_⟩
        intro hqt
        exact hnd.1 (hp ▸ hqt ▸ List.mem_map_of_mem Piece.position hq)
    · rw [if_neg hp] at h
      rcases List.mem_cons.mp h with hq | hq
      · exact Or.inl ⟨hq ▸ List.mem_cons_self p rest, hq ▸ hp⟩
      · rcases ih hnd.2 hq with ⟨h1, h2⟩ | ⟨p1, hp1, ht1, hq1⟩
        · exact Or.inl ⟨List.mem_cons_of_mem p h1, h2⟩
        · exact Or.inr ⟨p1, List.mem_cons_of_mem p hp1, ht1, hq1⟩

/-- Relocating the unique piece at `t` to a square `d` occupied by no
piece of the list keeps positions pairwise distinct. -/
theorem nodup_update_first_at (l : List Piece) (t d : ChessPosition) (f : Piece → Piece)
    (hf : ∀ p, (f p).position = d) (hnd : (l.map Piece.position).Nodup)
    (hne : ∀ q ∈ l, q.position ≠ d) :
    ((update_first_at l t f).map Piece.position).Nodup := by
  induction l with
  | nil => simp [update_first_at]
  | cons p rest ih =>
    rw [List.map_cons, List.nodup_cons] at hnd
    rw [update_first_at]
    by_cases hp : p.position = t
    · rw [if_pos hp, List.map_cons, List.nodup_cons]
      refine ⟨?_, hnd.2⟩
      rw [hf p]
      intro hmem
      rcases List.mem_map.mp hmem with ⟨q, hq, hqd⟩
      exact hne q (List.mem_cons_of_mem p hq) hqd
    · rw [if_neg hp, List.map_cons, List.nodup_cons]
      refine ⟨?_, ih hnd.2 (fun q hq => hne q (List.mem_cons_of_mem p hq))⟩
      intro hmem
      rcases List.mem_map.mp hmem with ⟨q, hq, hqp⟩
      rcases mem_update_first_at_weak rest t f q hq with h1 | ⟨p1, _, hq1⟩
      · exact hnd.1 (hqp ▸ List.mem_map_of_mem Piece.position h1)
      · exact hne p (List.mem_cons_self p rest) (by rw [← hqp, hq1, hf p1])

/-- Under the placement invariant, a position determines the piece. -/
theorem piece_position_inj (l : List Piece) (hnd : (l.map Piece.position).Nodup)
    (p q : Piece) (hp : p ∈ l) (hq : q ∈ l) (hpos : p.position = q.position) : p = q :=
  List.inj_on_of_nodup_map hnd hp hq hpos

theorem register_pieces (b : ChessBoard) (pos : ChessPosition) (c : Color) :
    (register_king_position b pos c).pieces = b.pieces := by
  cases c <;> rfl

theorem king_index_register_self (b : ChessBoard) (pos : ChessPosition) (c : Color) :
    king_index (register_king_position b pos c) c = some pos := by
  cases c <;> rfl

theorem king_index_register_other (b : ChessBoard) (pos : ChessPosition) (c c' : Color)
    (h : c' ≠ c) :
    king_index (register_king_position b pos c) c' = king_index b c' := by
  cases c <;> cases c' <;> first | rfl | exact absurd rfl h

theorem king_index_mk (sz : Int) (ps : List Piece) (b : ChessBoard) (c : Color) :
    king_index ⟨sz, ps, b.white_king_position, b.black_king_position⟩ c =
      king_index b c := by
  cases c <;> rfl

theorem execute_move_some_eq (b : ChessBoard) (command : MoveCommand) (s : Piece)
    (hsp : get_piece b command.src = some s) :
    execute_move b command = some (execute_result b command s) := by
  unfold execute_move
  rw [hsp]

theorem execute_move_none_eq (b : ChessBoard) (command : MoveCommand)
    (hsp : get_piece b command.src = none) :
    execute_move b command = none := by
  unfold execute_move
  rw [hsp]

/-- The piece list after a move: first delete at the destination, then —
unless the deleted piece was the moving piece itself — relocate the first
piece at the source. -/
theorem execute_result_pieces (b : ChessBoard) (command : MoveCommand) (s : Piece) :
    (execute_result b command s).pieces =
      (if command.src = command.dst then erase_first_at b.pieces command.dst
       else update_first_at (erase_first_at b.pieces command.dst) command.src
         (fun p => piece_move p command.dst)) := by
  unfold execute_result
  by_cases hk : s.ptype = PieceType.king
  · rw [if_pos hk, register_pieces]
  · rw [if_neg hk]

/-- The king index after a move: the moving side's entry becomes the
destination when a king moved; every other entry is untouched. -/
theorem execute_result_king_index (b : ChessBoard) (command : MoveCommand) (s : Piece)
    (c : Color) :
    king_index (execute_result b command s) c =
      (if s.ptype = PieceType.king ∧ c = s.color then some command.dst
       else king_index b c) := by
  by_cases hkk : s.ptype = PieceType.king
  · by_cases hc : c = s.color
    · subst hc
      rw [if_pos ⟨hkk, rfl⟩]
      unfold execute_result
      rw [if_pos hkk, king_index_register_self]
    · rw [if_neg (fun hand => hc hand.2)]
      unfold execute_result
      rw [if_pos hkk, king_index_register_other _ _ _ _ hc, king_index_mk]
  · rw [if_neg (fun hand => hkk hand.1)]
    unfold execute_result
    rw [if_neg hkk, king_index_mk]

theorem piece_move_ptype (p : Piece) (t : ChessPosition) :
    (piece_move p t).ptype = p.ptype := rfl

theorem piece_move_color (p : Piece) (t : ChessPosition) :
    (piece_move p t).color = p.color := rfl

theorem piece_move_position (p : Piece) (t : ChessPosition) :
    (piece_move p t).position = t := rfl

/-- `execute_move` preserves the placement invariant and the king-index
invariant. -/
theorem execute_result_good (b : ChessBoard) (command : MoveCommand) (s : Piece)
    (hsp : get_piece b command.src = some s)
    (hd : distinct_positions b.pieces) (hk : KingInv b) :
    distinct_positions (execute_result b command s).pieces ∧
      KingInv (execute_result b command s) := by
  obtain ⟨hs_mem, hs_pos⟩ := get_piece_some b command.src s hsp
  have hnd : (b.pieces.map Piece.position).Nodup := hd
  have hnd1 : ((erase_first_at b.pieces command.dst).map Piece.position).Nodup :=
    ((erase_first_at_sublist b.pieces command.dst).map Piece.position).nodup hnd
  have hne1 : ∀ q ∈ erase_first_at b.pieces command.dst, q.position ≠ command.dst :=
    mem_erase_first_at_pos_ne b.pieces command.dst hnd
  constructor
  · show ((execute_result b command s).pieces.map Piece.position).Nodup
    rw [execute_result_pieces]
    by_cases hsd : command.src = command.dst
    · rw [if_pos hsd]; exact hnd1
    · rw [if_neg hsd]
      exact nodup_update_first_at _ command.src command.dst _ (fun p => rfl) hnd1 hne1
  · intro q hq hqk
    rw [execute_result_pieces] at hq
    rw [execute_result_king_index]
    by_cases hsd : command.src = command.dst
    · rw [if_pos hsd] at hq
      have hq_mem := mem_erase_first_at _ _ _ hq
      have hq_ne := hne1 q hq
      by_cases hcase : s.ptype = PieceType.king ∧ q.color = s.color
      · exfalso
        have h1 := hk q hq_mem hqk
        have h2 := hk s hs_mem hcase.1
        rw [hcase.2, h2] at h1
        have hqs : s.position = q.position := Option.some_inj.mp h1
        exact hq_ne (by rw [← hqs, hs_pos, hsd])
      · rw [if_neg hcase]
        exact hk q hq_mem hqk
    · rw [if_neg hsd] at hq
      rcases mem_update_first_at_cases _ _ _ hnd1 q hq with ⟨hq1, hq2⟩ | ⟨p1, hp1, hpt, hqe⟩
      · have hq_mem := mem_erase_first_at _ _ _ hq1
        by_cases hcase : s.ptype = PieceType.king ∧ q.color = s.color
        · exfalso
          have h1 := hk q hq_mem hqk
          have h2 := hk s hs_mem hcase.1
          rw [hcase.2, h2] at h1
          have hqs : s.position = q.position := Option.some_inj.mp h1
          exact hq2 (by rw [← hqs, hs_pos])
        · rw [if_neg hcase]
          exact hk q hq_mem hqk
      · have hp1_mem := mem_erase_first_at _ _ _ hp1
        have hps : p1 = s :=
          piece_position_inj b.pieces hnd p1 s hp1_mem hs_mem (by rw [hpt, hs_pos])
        subst hps
        have hq_ptype : p1.ptype = PieceType.king := by
          rw [hqe, piece_move_ptype] at hqk; exact hqk
        have hq_color : q.color = p1.color := by rw [hqe, piece_move_color]
        have hq_pos : q.position = command.dst := by rw [hqe, piece_move_position]
        rw [if_pos ⟨hq_ptype, hq_color⟩, hq_pos]

/-! ### Facts about `_try_move` and the game step -/

theorem try_move_none (b : ChessBoard) (st : GameStatus) (command : MoveCommand)
    (hsp : get_piece b command.src = none) : try_move b st command = false := by
  unfold try_move
  rw [hsp]

theorem try_move_some_eq (b : ChessBoard) (st : GameStatus) (command : MoveCommand)
    (s : Piece) (hsp : get_piece b command.src = some s) :
    try_move b st command =
      (if (st = GameStatus.white_move ∧ s.color = Color.black) ∨
          (st = GameStatus.black_move ∧ s.color = Color.white) then false
       else if command.dst ∉ get_moveable_positions b s ∧
           command.dst ∉ get_threatened_positions b s then false
       else
         match execute_move b command with
         | none => false
         | some board_copy =>
           board_copy.pieces.all (fun piece =>
             !((st == GameStatus.white_move &&
                 opt_mem board_copy.white_king_position
                   (get_threatened_positions board_copy piece)) ||
               (st == GameStatus.black_move &&
                 opt_mem board_copy.black_king_position
                   (get_threatened_positions board_copy piece))))) := by
  unfold try_move
  rw [hsp]

theorem try_move_true_src (b : ChessBoard) (st : GameStatus) (command : MoveCommand)
    (h : try_move b st command = true) : ∃ s, get_piece b command.src = some s := by
  cases hsp : get_piece b command.src with
  | none => rw [try_move_none b st command hsp] at h; exact absurd h (by simp)
  | some s => exact ⟨s, rfl⟩

theorem step_command_of_false (g : ChessGame) (command : MoveCommand)
    (h : try_move g.board g.status command = false) : step_command g command = g := by
  unfold step_command
  rw [h]
  simp

theorem step_command_of_true (g : ChessGame) (command : MoveCommand) (s : Piece)
    (hs : get_piece g.board command.src = some s)
    (h : try_move g.board g.status command = true) :
    step_command g command =
      ⟨execute_result g.board command s, flip_status g.status⟩ := by
  unfold step_command
  rw [h, execute_move_some_eq g.board command s hs]
  simp

theorem step_good (g : ChessGame) (command : MoveCommand)
    (h : distinct_positions g.board.pieces ∧ KingInv g.board) :
    distinct_positions (step_command g command).board.pieces ∧
      KingInv (step_command g command).board := by
  by_cases ht : try_move g.board g.status command = true
  · obtain ⟨s, hs⟩ := try_move_true_src _ _ _ ht
    rw [step_command_of_true g command s hs ht]
    exact execute_result_good g.board command s hs h.1 h.2
  · rw [step_command_of_false g command (Bool.eq_false_iff.mpr ht)]
    exact h

/-- Both board invariants hold in every reachable game state. -/
theorem reachable_good (g : ChessGame) (h : ReachableGame g) :
    distinct_positions g.board.pieces ∧ KingInv g.board := by
  induction h with
  | init => exact ⟨by decide, by decide⟩
  | step g command _ ih => exact step_good g command ih

/-! ### The pawn's moveable squares, characterised -/

/-- Membership in a pawn's moveable squares, in terms of the four probe
targets (forward one, forward two when never moved, both diagonals). -/
theorem pawn_moveable_mem_iff (b : ChessBoard) (pc : Color) (ppos : ChessPosition)
    (pm : Bool) (q : ChessPosition) :
    q ∈ get_moveable_positions b ⟨PieceType.pawn, pc, ppos, pm⟩ ↔
      ((q = ⟨ppos.x_coord + 0, ppos.y_coord + pawn_dir_y pc 1⟩ ∧ in_bounds b q ∧
          get_piece b q = none) ∨
        (pm = false ∧ q = ⟨ppos.x_coord + 0, ppos.y_coord + pawn_dir_y pc 2⟩ ∧
          in_bounds b q ∧ get_piece b q = none) ∨
        ((q = ⟨ppos.x_coord + -1, ppos.y_coord + pawn_dir_y pc 1⟩ ∨
            q = ⟨ppos.x_coord + 1, ppos.y_coord + pawn_dir_y pc 1⟩) ∧ in_bounds b q ∧
          ∃ e, get_piece b q = some e ∧ e.color ≠ pc)) := by
  cases pm
  case false =>
    rw [show get_moveable_positions b ⟨PieceType.pawn, pc, ppos, false⟩ =
      ([spot_search_threat b ppos pc 0 (pawn_dir_y pc 1) false true,
        spot_search_threat b ppos pc 0 (pawn_dir_y pc 2) false true] ++
       [spot_search_threat b ppos pc (-1) (pawn_dir_y pc 1) true false,
        spot_search_threat b ppos pc 1 (pawn_dir_y pc 1) true false]).reduceOption from rfl]
    rw [List.reduceOption_mem_iff]
    simp only [List.mem_append, List.mem_cons, List.not_mem_nil, or_false]
    constructor
    · rintro ((h | h) | (h | h))
      · exact Or.inl ((spot_free_only_iff b ppos pc 0 (pawn_dir_y pc 1) q).mp h.symm)
      · exact Or.inr (Or.inl ⟨by trivial,
          (spot_free_only_iff b ppos pc 0 (pawn_dir_y pc 2) q).mp h.symm⟩)
      · obtain ⟨he, hin, hocc⟩ :=
          (spot_threat_only_iff b ppos pc (-1) (pawn_dir_y pc 1) q).mp h.symm
        exact Or.inr (Or.inr ⟨Or.inl he, hin, hocc⟩)
      · obtain ⟨he, hin, hocc⟩ :=
          (spot_threat_only_iff b ppos pc 1 (pawn_dir_y pc 1) q).mp h.symm
        exact Or.inr (Or.inr ⟨Or.inr he, hin, hocc⟩)
    · rintro (h | ⟨_, h⟩ | ⟨he, hin, hocc⟩)
      · exact Or.inl (Or.inl
          ((spot_free_only_iff b ppos pc 0 (pawn_dir_y pc 1) q).mpr h).symm)
      · exact Or.inl (Or.inr
          ((spot_free_only_iff b ppos pc 0 (pawn_dir_y pc 2) q).mpr h).symm)
      · rcases he with he | he
        · exact Or.inr (Or.inl
            ((spot_threat_only_iff b ppos pc (-1) (pawn_dir_y pc 1) q).mpr
              ⟨he, hin, hocc⟩).symm)
        · exact Or.inr (Or.inr
            ((spot_threat_only_iff b ppos pc 1 (pawn_dir_y pc 1) q).mpr
              ⟨he, hin, hocc⟩).symm)
  case true =>
    rw [show get_moveable_positions b ⟨PieceType.pawn, pc, ppos, true⟩ =
      ([spot_search_threat b ppos pc 0 (pawn_dir_y pc 1) false true] ++
       [spot_search_threat b ppos pc (-1) (pawn_dir_y pc 1) true false,
        spot_search_threat b ppos pc 1 (pawn_dir_y pc 1) true false]).reduceOption from rfl]
    rw [List.reduceOption_mem_iff]
    simp only [List.mem_append, List.mem_cons, List.not_mem_nil, or_false,
      List.mem_singleton]
    constructor
    · rintro (h | (h | h))
      · exact Or.inl ((spot_free_only_iff b ppos pc 0 (pawn_dir_y pc 1) q).mp h.symm)
      · obtain ⟨he, hin, hocc⟩ :=
          (spot_threat_only_iff b ppos pc (-1) (pawn_dir_y pc 1) q).mp h.symm
        exact Or.inr (Or.inr ⟨Or.inl he, hin, hocc⟩)
      · obtain ⟨he, hin, hocc⟩ :=
          (spot_threat_only_iff b ppos pc 1 (pawn_dir_y pc 1) q).mp h.symm
        exact Or.inr (Or.inr ⟨Or.inr he, hin, hocc⟩)
    · rintro (h | ⟨hff, _⟩ | ⟨he, hin, hocc⟩)
      · exact Or.inl
          ((spot_free_only_iff b ppos pc 0 (pawn_dir_y pc 1) q).mpr h).symm
      · simp at hff
      · rcases he with he | he
        · exact Or.inr (Or.inl
            ((spot_threat_only_iff b ppos pc (-1) (pawn_dir_y pc 1) q).mpr
              ⟨he, hin, hocc⟩).symm)
        · exact Or.inr (Or.inr
            ((spot_threat_only_iff b ppos pc 1 (pawn_dir_y pc 1) q).mpr
              ⟨he, hin, hocc⟩).symm)

/-! ### The claims -/

/-- Claim C4: in every board state reachable from the initial layout by
validated moves, at most one piece occupies any given square. -/
theorem at_most_one_piece_per_square (g : ChessGame) (h : ReachableGame g) :
    distinct_positions g.board.pieces :=
  (reachable_good g h).1

/-- C4 evaluated on the position reached after the validated opening move
e2–e4. -/
theorem at_most_one_piece_per_square_witness :
    distinct_positions (step_command initial_game ⟨⟨4, 1⟩, ⟨4, 3⟩⟩).board.pieces :=
  at_most_one_piece_per_square (step_command initial_game ⟨⟨4, 1⟩, ⟨4, 3⟩⟩)
    (ReachableGame.step initial_game ⟨⟨4, 1⟩, ⟨4, 3⟩⟩ ReachableGame.init)

/-- Claim C5: in every reachable board state the king-position index entry
for each color equals the live position of that color's King piece; the
entries are created when the kings are constructed at board set-up, and a
move updates an entry exactly when the moved source piece is that color's
King. -/
theorem king_index_matches_live_king :
    (∀ g : ChessGame, ReachableGame g → ∀ p ∈ g.board.pieces,
        p.ptype = PieceType.king → king_index g.board p.color = some p.position) ∧
      (king_index ChessBoard.new Color.white = some ⟨4, 0⟩ ∧
        king_index ChessBoard.new Color.black = some ⟨3, 7⟩) ∧
      (∀ (b : ChessBoard) (command : MoveCommand) (b2 : ChessBoard) (s : Piece),
        get_piece b command.src = some s → execute_move b command = some b2 →
          (s.ptype ≠ PieceType.king → ∀ c, king_index b2 c = king_index b c) ∧
          (s.ptype = PieceType.king →
            king_index b2 s.color = some command.dst ∧
            ∀ c, c ≠ s.color → king_index b2 c = king_index b c)) := by
  refine ⟨?_, ⟨by decide, by decide⟩, ?_⟩
  · intro g hg p hp hpk
    exact (reachable_good g hg).2 p hp hpk
  · intro b command b2 s hsp hex
    rw [execute_move_some_eq b command s hsp] at hex
    have hb2 : b2 = execute_result b command s := (Option.some_inj.mp hex).symm
    subst hb2
    constructor
    · intro hnk c
      rw [execute_result_king_index, if_neg (fun hand => hnk hand.1)]
    · intro hkk
      constructor
      · rw [execute_result_king_index, if_pos ⟨hkk, rfl⟩]
      · intro c hc
        rw [execute_result_king_index, if_neg (fun hand => hc hand.2)]

/-- C5 evaluated on the position reached after the validated opening move
e2–e4: the white king index still points at e1. -/
theorem king_index_matches_live_king_witness :
    king_index (step_command initial_game ⟨⟨4, 1⟩, ⟨4, 3⟩⟩).board Color.white =
      some ⟨4, 0⟩ :=
  king_index_matches_live_king.1 (step_command initial_game ⟨⟨4, 1⟩, ⟨4, 3⟩⟩)
    (ReachableGame.step initial_game ⟨⟨4, 1⟩, ⟨4, 3⟩⟩ ReachableGame.init)
    ⟨PieceType.king, Color.white, ⟨4, 0⟩, false⟩ (by decide) rfl

/-- Claim C2: with White or Black to move, a move request rejected by
validation leaves the live board and the side to move unchanged, and an
accepted one is applied to the live board exactly once while the side to
move flips between White and Black. -/
theorem validation_gates_application (g : ChessGame) (command : MoveCommand)
    (hs : g.status = GameStatus.white_move ∨ g.status = GameStatus.black_move) :
    (try_move g.board g.status command = false → step_command g command = g) ∧
      (try_move g.board g.status command = true →
        ∃ s, get_piece g.board command.src = some s ∧
          step_command g command =
            ⟨execute_result g.board command s,
              if g.status = GameStatus.white_move then GameStatus.black_move
              else GameStatus.white_move⟩) := by
  constructor
  · exact step_command_of_false g command
  · intro ht
    obtain ⟨s, hsome⟩ := try_move_true_src g.board g.status command ht
    refine ⟨s, hsome, ?_⟩
    rw [step_command_of_true g command s hsome ht]
    rcases hs with h | h <;> rw [h] <;> rfl

/-- C2 evaluated on the initial position with the wrong-color request
e7–e5: rejected, game unchanged. -/
theorem validation_gates_application_witness :
    step_command initial_game ⟨⟨4, 6⟩, ⟨4, 4⟩⟩ = initial_game :=
  (validation_gates_application initial_game ⟨⟨4, 6⟩, ⟨4, 4⟩⟩ (Or.inl rfl)).1
    (by decide)

/-- Claim C1: a candidate move whose source piece exists and matches the
side to move and whose destination lies in the piece's moveable or
threatened squares is still rejected — and the real board left unchanged —
whenever, after applying the move on the simulation copy, some remaining
piece's threatened squares contain the moving side's king position. -/
theorem self_check_move_rejected (b : ChessBoard) (status : GameStatus)
    (command : MoveCommand) (s : Piece) (b2 : ChessBoard)
    (hsp : get_piece b command.src = some s)
    (hcolor : (status = GameStatus.white_move ∧ s.color = Color.white) ∨
      (status = GameStatus.black_move ∧ s.color = Color.black))
    (hdst : command.dst ∈ get_moveable_positions b s ∨
      command.dst ∈ get_threatened_positions b s)
    (hexec : execute_move b command = some b2)
    (hthreat : ∃ p ∈ b2.pieces,
      opt_mem (king_index_of_status b2 status) (get_threatened_positions b2 p) = true) :
    try_move b status command = false ∧
      ∀ g : ChessGame, g.board = b → g.status = status → step_command g command = g := by
  have hfalse : try_move b status command = false := by
    rw [try_move_some_eq b status command s hsp]
    have hc1 : ¬((status = GameStatus.white_move ∧ s.color = Color.black) ∨
        (status = GameStatus.black_move ∧ s.color = Color.white)) := by
      rcases hcolor with ⟨h3, h4⟩ | ⟨h3, h4⟩ <;> subst h3 <;> rw [h4] <;> decide
    rw [if_neg hc1]
    have hc2 : ¬(command.dst ∉ get_moveable_positions b s ∧
        command.dst ∉ get_threatened_positions b s) := by
      rcases hdst with h | h
      · exact fun hand => hand.1 h
      · exact fun hand => hand.2 h
    rw [if_neg hc2, hexec]
    obtain ⟨p, hp_mem, hp_threat⟩ := hthreat
    refine List.all_eq_false.mpr ⟨p, hp_mem, ?_⟩
    rcases hcolor with ⟨h3, _⟩ | ⟨h3, _⟩ <;> subst h3
    · have hki : king_index_of_status b2 GameStatus.white_move =
          b2.white_king_position := rfl
      rw [hki] at hp_threat
      simp [hp_threat]
    · have hki : king_index_of_status b2 GameStatus.black_move =
          b2.black_king_position := rfl
      rw [hki] at hp_threat
      simp [hp_threat]
  refine ⟨hfalse, ?_⟩
  intro g hb hst
  subst hb
  subst hst
  exact step_command_of_false g command hfalse

/-- C1 evaluated on the pin fixture: moving the White rook e2–f2 passes
the geometric checks but exposes the White king to the Black rook, so the
move is rejected and the game state is unchanged. -/
theorem self_check_move_rejected_witness :
    try_move pin_board GameStatus.white_move ⟨⟨4, 1⟩, ⟨5, 1⟩⟩ = false ∧
      step_command ⟨pin_board, GameStatus.white_move⟩ ⟨⟨4, 1⟩, ⟨5, 1⟩⟩ =
        ⟨pin_board, GameStatus.white_move⟩ := by
  have h := self_check_move_rejected pin_board GameStatus.white_move ⟨⟨4, 1⟩, ⟨5, 1⟩⟩
    ⟨PieceType.rook, Color.white, ⟨4, 1⟩, false⟩
    (execute_result pin_board ⟨⟨4, 1⟩, ⟨5, 1⟩⟩ ⟨PieceType.rook, Color.white, ⟨4, 1⟩, false⟩)
    (by decide) (Or.inl ⟨rfl, rfl⟩) (Or.inl (by decide)) (by decide)
    ⟨⟨PieceType.rook, Color.black, ⟨4, 7⟩, false⟩, by decide, by decide⟩
  exact ⟨h.1, h.2 ⟨pin_board, GameStatus.white_move⟩ rfl rfl⟩

/-- Claim C3 counterexample: parsing does not fail on out-of-range text —
the square text `"a9"` parses to the out-of-range position (0, 8) with no
bounds check, and the move line `"a1 a9"` produces a move request. -/
theorem out_of_range_parse_succeeds :
    ChessPosition.from_string "a9" = some ⟨0, 8⟩ ∧
      MoveCommand.from_string "a1 a9" = some ⟨⟨0, 0⟩, ⟨0, 8⟩⟩ := by decide

/-- Claim C3 amended: position parsing fails (produces no value) only on
malformed text — empty coordinate text, a non-numeric row, or a token
count other than two; out-of-range text such as `"a9"` parses
successfully, and the move `"a1 a9"` on any 8×8 board is rejected by the
legality check instead (its destination lies outside every piece's
moveable and threatened squares, which contain only in-bounds squares),
not by a parse or bounds failure. -/
theorem parse_rejection_amended :
    ChessPosition.from_string "" = none ∧
      ChessPosition.from_string "ab" = none ∧
      MoveCommand.from_string "a1" = none ∧
      MoveCommand.from_string "a1 a9" = some ⟨⟨0, 0⟩, ⟨0, 8⟩⟩ ∧
      ∀ (b : ChessBoard) (status : GameStatus), b.size = 8 →
        try_move b status ⟨⟨0, 0⟩, ⟨0, 8⟩⟩ = false := by
  refine ⟨by decide, by decide, by decide, by decide, ?_⟩
  intro b status hsize
  cases hsp : get_piece b ⟨0, 0⟩ with
  | none => exact try_move_none b status ⟨⟨0, 0⟩, ⟨0, 8⟩⟩ hsp
  | some s =>
    rw [try_move_some_eq b status ⟨⟨0, 0⟩, ⟨0, 8⟩⟩ s hsp]
    by_cases hc : (status = GameStatus.white_move ∧ s.color = Color.black) ∨
        (status = GameStatus.black_move ∧ s.color = Color.white)
    · rw [if_pos hc]
    · have hout : (⟨0, 8⟩ : ChessPosition) ∉ get_moveable_positions b s ∧
          (⟨0, 8⟩ : ChessPosition) ∉ get_threatened_positions b s := by
        constructor
        · intro hmem
          have hin : (0 : Int) ≤ 0 ∧ (0 : Int) < b.size ∧ (0 : Int) ≤ 8 ∧
              (8 : Int) < b.size := mem_moveable_in_bounds b s ⟨0, 8⟩ hmem
          omega
        · intro hmem
          have hin : (0 : Int) ≤ 0 ∧ (0 : Int) < b.size ∧ (0 : Int) ≤ 8 ∧
              (8 : Int) < b.size := mem_threatened_in_bounds b s ⟨0, 8⟩ hmem
          omega
      rw [if_neg hc, if_pos hout]

/-- C3 amended, evaluated: "a1 a9" is rejected on the concrete initial
board. -/
theorem parse_rejection_amended_witness :
    try_move ChessBoard.new GameStatus.white_move ⟨⟨0, 0⟩, ⟨0, 8⟩⟩ = false :=
  parse_rejection_amended.2.2.2.2 ChessBoard.new GameStatus.white_move (by decide)

/-- Claim C8: a pawn's moveable squares are exactly one step forward
(`+row` for White, `−row` for Black) when that square is free, plus two
steps forward when the pawn has never moved and the target is free, plus
each forward-diagonal square occupied by an enemy; the has-moved flag is
set on a pawn's relocation and never reset; and the never-moved pawn at e2
with destination e5 is rejected. -/
theorem pawn_moveable_spec :
    (∀ (b : ChessBoard) (p : Piece), p.ptype = PieceType.pawn →
      ∀ q : ChessPosition,
        q ∈ get_moveable_positions b p ↔
          ((q = ⟨p.position.x_coord,
              p.position.y_coord + (if p.color = Color.white then 1 else -1)⟩ ∧
              in_bounds b q ∧ get_piece b q = none) ∨
            (p.moved = false ∧
              q = ⟨p.position.x_coord,
                p.position.y_coord + 2 * (if p.color = Color.white then 1 else -1)⟩ ∧
              in_bounds b q ∧ get_piece b q = none) ∨
            ((q = ⟨p.position.x_coord - 1,
                p.position.y_coord + (if p.color = Color.white then 1 else -1)⟩ ∨
              q = ⟨p.position.x_coord + 1,
                p.position.y_coord + (if p.color = Color.white then 1 else -1)⟩) ∧
              in_bounds b q ∧ ∃ e, get_piece b q = some e ∧ e.color ≠ p.color))) ∧
      (∀ (p : Piece) (t : ChessPosition), p.ptype = PieceType.pawn →
        (piece_move p t).moved = true) ∧
      (∀ (p : Piece) (t : ChessPosition), p.moved = true →
        (piece_move p t).moved = true) ∧
      try_move ChessBoard.new GameStatus.white_move ⟨⟨4, 1⟩, ⟨4, 4⟩⟩ = false := by
  refine ⟨?_, ?_, ?_, by decide⟩
  · intro b p hp q
    obtain ⟨pt, pc, ppos, pm⟩ := p
    have hpt : pt = PieceType.pawn := hp
    subst hpt
    have hpos : (⟨PieceType.pawn, pc, ppos, pm⟩ : Piece).position = ppos := rfl
    have hcol : (⟨PieceType.pawn, pc, ppos, pm⟩ : Piece).color = pc := rfl
    have hmv : (⟨PieceType.pawn, pc, ppos, pm⟩ : Piece).moved = pm := rfl
    rw [hpos, hcol, hmv, pawn_moveable_mem_iff b pc ppos pm q]
    have d1 : pawn_dir_y pc 1 = (if pc = Color.white then 1 else -1) := rfl
    have d2 : pawn_dir_y pc 2 = 2 * (if pc = Color.white then 1 else -1) := by
      cases pc <;> norm_num [pawn_dir_y]
    have z0 : ppos.x_coord + 0 = ppos.x_coord := by omega
    have m1 : ppos.x_coord + -1 = ppos.x_coord - 1 := by omega
    rw [d1, d2, z0, m1]
  · intro p t hp
    show (if p.ptype = PieceType.pawn then true else p.moved) = true
    rw [if_pos hp]
  · intro p t hm
    show (if p.ptype = PieceType.pawn then true else p.moved) = true
    by_cases hp : p.ptype = PieceType.pawn
    · rw [if_pos hp]
    · rw [if_neg hp]; exact hm

/-- C8 evaluated: on the initial board e4 is a moveable square of the
never-moved e2 pawn, and relocating a pawn sets its has-moved flag. -/
theorem pawn_moveable_spec_witness :
    (⟨4, 3⟩ : ChessPosition) ∈ get_moveable_positions ChessBoard.new
        ⟨PieceType.pawn, Color.white, ⟨4, 1⟩, false⟩ ∧
      (piece_move ⟨PieceType.pawn, Color.white, ⟨4, 1⟩, false⟩ ⟨4, 3⟩).moved = true := by
  constructor
  · exact (pawn_moveable_spec.1 ChessBoard.new
      ⟨PieceType.pawn, Color.white, ⟨4, 1⟩, false⟩ rfl ⟨4, 3⟩).mpr
      (Or.inr (Or.inl ⟨rfl, by decide, by decide, by decide⟩))
  · exact pawn_moveable_spec.2.1 ⟨PieceType.pawn, Color.white, ⟨4, 1⟩, false⟩ ⟨4, 3⟩ rfl

/-- Claim C10: for a never-moved pawn the two-step forward advance is in
its moveable squares whenever the destination square is on the board and
free — no condition on the intermediate square, which the probe never
examines. -/
theorem pawn_double_step_only_checks_destination (b : ChessBoard) (p : Piece)
    (hp : p.ptype = PieceType.pawn) (hm : p.moved = false) (q : ChessPosition)
    (hq : q = ⟨p.position.x_coord,
      p.position.y_coord + 2 * (if p.color = Color.white then 1 else -1)⟩)
    (hin : in_bounds b q) (hfree : get_piece b q = none) :
    q ∈ get_moveable_positions b p := by
  obtain ⟨pt, pc, ppos, pm⟩ := p
  have hpt : pt = PieceType.pawn := hp
  subst hpt
  have hpm : pm = false := hm
  subst hpm
  apply (pawn_moveable_mem_iff b pc ppos false q).mpr
  refine Or.inr (Or.inl ⟨rfl, ?_, hin, hfree⟩)
  rw [hq]
  have d2 : pawn_dir_y pc 2 = 2 * (if pc = Color.white then 1 else -1) := by
    cases pc <;> norm_num [pawn_dir_y]
  rw [d2]
  have z0 : ppos.x_coord + 0 = ppos.x_coord := by omega
  rw [z0]

/-- C10 evaluated on the blocked fixture: e3 is occupied by a Black
knight, yet e4 is still a moveable square of the never-moved e2 pawn. -/
theorem pawn_double_step_only_checks_destination_witness :
    (⟨4, 3⟩ : ChessPosition) ∈ get_moveable_positions blocked_board
        ⟨PieceType.pawn, Color.white, ⟨4, 1⟩, false⟩ ∧
      get_piece blocked_board ⟨4, 2⟩ =
        some ⟨PieceType.knight, Color.black, ⟨4, 2⟩, false⟩ :=
  ⟨pawn_double_step_only_checks_destination blocked_board
      ⟨PieceType.pawn, Color.white, ⟨4, 1⟩, false⟩ rfl rfl ⟨4, 3⟩ (by decide)
      (by decide) (by decide),
    by decide⟩

/-- Claim C9: a pawn's move to an empty forward-diagonal square passes
validation and is applied — the destination check accepts any square of
the threatened set, and a pawn's threatened squares (normal-mode probes)
include empty diagonal squares, so the pawn relocates diagonally without
capturing anything. -/
theorem pawn_diagonal_no_capture_applied :
    get_piece diag_board ⟨5, 2⟩ = none ∧
      (⟨5, 2⟩ : ChessPosition) ∉ get_moveable_positions diag_board
        ⟨PieceType.pawn, Color.white, ⟨4, 1⟩, false⟩ ∧
      (⟨5, 2⟩ : ChessPosition) ∈ get_threatened_positions diag_board
        ⟨PieceType.pawn, Color.white, ⟨4, 1⟩, false⟩ ∧
      try_move diag_board GameStatus.white_move ⟨⟨4, 1⟩, ⟨5, 2⟩⟩ = true ∧
      step_command ⟨diag_board, GameStatus.white_move⟩ ⟨⟨4, 1⟩, ⟨5, 2⟩⟩ =
        ⟨⟨8,
          [⟨PieceType.king, Color.white, ⟨4, 0⟩, false⟩,
           ⟨PieceType.pawn, Color.white, ⟨5, 2⟩, true⟩,
           ⟨PieceType.king, Color.black, ⟨3, 7⟩, false⟩],
          some ⟨4, 0⟩, some ⟨3, 7⟩⟩, GameStatus.black_move⟩ := by decide

/-- Claim C6: the ray scan walks `start + k·(dx,dy)` in order, appending
each empty square and continuing, appending the first occupied square
exactly when its occupant's color differs from `ownColor`, and stopping at
the first occupied square or the board edge; on a piece-free direction it
returns exactly the in-bounds squares up to (and not beyond) the edge. -/
theorem beam_search_threat_spec (b : ChessBoard) (start : ChessPosition) (c : Color)
    (increment_x increment_y : Int) (hd : increment_x ≠ 0 ∨ increment_y ≠ 0) :
    (beam_search_threat b start c increment_x increment_y =
      (if 0 ≤ start.x_coord + increment_x ∧ 0 ≤ start.y_coord + increment_y ∧
          start.x_coord + increment_x < b.size ∧
          start.y_coord + increment_y < b.size then
        match get_piece b ⟨start.x_coord + increment_x,
            start.y_coord + increment_y⟩ with
        | some piece =>
          if piece.color ≠ c then
            [(⟨start.x_coord + increment_x, start.y_coord + increment_y⟩ :
              ChessPosition)]
          else []
        | none =>
          (⟨start.x_coord + increment_x, start.y_coord + increment_y⟩ :
            ChessPosition) ::
            beam_search_threat b
              ⟨start.x_coord + increment_x, start.y_coord + increment_y⟩ c
              increment_x increment_y
      else [])) ∧
      ((∀ q ∈ ray_squares b start increment_x increment_y, get_piece b q = none) →
        beam_search_threat b start c increment_x increment_y =
          ray_squares b start increment_x increment_y) := by
  constructor
  · by_cases hb : 0 ≤ start.x_coord + increment_x ∧ 0 ≤ start.y_coord + increment_y ∧
        start.x_coord + increment_x < b.size ∧ start.y_coord + increment_y < b.size
    · cases hg : get_piece b ⟨start.x_coord + increment_x,
          start.y_coord + increment_y⟩ with
      | some piece =>
        have hL : beam_search_threat b start c increment_x increment_y =
            (if piece.color ≠ c then
              [(⟨start.x_coord + increment_x, start.y_coord + increment_y⟩ :
                ChessPosition)]
            else []) := by
          unfold beam_search_threat
          exact beam_aux_succ_occ b c increment_x increment_y _ _ _ piece hb hg
        rw [hL, if_pos hb]
      | none =>
        have hN : ((b.size.toNat : Int)) = b.size :=
          Int.toNat_of_nonneg (by omega)
        have hL : beam_search_threat b start c increment_x increment_y =
            (⟨start.x_coord + increment_x, start.y_coord + increment_y⟩ :
              ChessPosition) ::
              beam_aux b c increment_x increment_y b.size.toNat
                (start.x_coord + increment_x + increment_x)
                (start.y_coord + increment_y + increment_y) := by
          unfold beam_search_threat
          exact beam_aux_succ_empty b c increment_x increment_y _ _ _ hb hg
        have hfuel : beam_aux b c increment_x increment_y b.size.toNat
              (start.x_coord + increment_x + increment_x)
              (start.y_coord + increment_y + increment_y) =
            beam_aux b c increment_x increment_y (b.size.toNat + 1)
              (start.x_coord + increment_x + increment_x)
              (start.y_coord + increment_y + increment_y) := by
          rcases hd with hix | hiy
          · refine beam_aux_fuel_x b c increment_x increment_y hix b.size.toNat _ _
              ?_ ?_
            · intro hpos; omega
            · intro hneg; omega
          · refine beam_aux_fuel_y b c increment_x increment_y hiy b.size.toNat _ _
              ?_ ?_
            · intro hpos; omega
            · intro hneg; omega
        rw [hL, hfuel, if_pos hb]
        rfl
    · have hL : beam_search_threat b start c increment_x increment_y = [] := by
        unfold beam_search_threat
        exact beam_aux_succ_oob b c increment_x increment_y _ _ _ hb
      rw [hL, if_neg hb]
  · intro hfree
    exact beam_aux_eq_ray_aux b c increment_x increment_y (b.size.toNat + 1)
      (start.x_coord + increment_x) (start.y_coord + increment_y) hfree

/-- C6 evaluated: on the empty board, the rightward ray from a1 equals the
in-bounds ray squares b1..h1. -/
theorem beam_search_threat_spec_witness :
    beam_search_threat empty_board ⟨0, 0⟩ Color.white 1 0 =
      ray_squares empty_board ⟨0, 0⟩ 1 0 :=
  (beam_search_threat_spec empty_board ⟨0, 0⟩ Color.white 1 0
    (Or.inl (by decide))).2 (by decide)

/-- Claim C7: the step probe examines exactly the single square
`start + (dx, dy)`; it returns none when that square is off the board or
occupied by `ownColor`; under `freeOnly` it never returns an occupied
square; under `threatOnly` it never returns an empty square; otherwise it
returns that square. -/
theorem spot_search_threat_spec (b : ChessBoard) (start : ChessPosition) (c : Color)
    (increment_x increment_y : Int) (threat_only free_only : Bool) :
    (∀ q, spot_search_threat b start c increment_x increment_y threat_only free_only =
        some q →
      q = ⟨start.x_coord + increment_x, start.y_coord + increment_y⟩) ∧
      (¬in_bounds b ⟨start.x_coord + increment_x, start.y_coord + increment_y⟩ →
        spot_search_threat b start c increment_x increment_y threat_only free_only =
          none) ∧
      (∀ piece,
        get_piece b ⟨start.x_coord + increment_x, start.y_coord + increment_y⟩ =
          some piece → piece.color = c →
        spot_search_threat b start c increment_x increment_y threat_only free_only =
          none) ∧
      (free_only = true →
        ∀ q, spot_search_threat b start c increment_x increment_y threat_only
            free_only = some q →
          get_piece b q = none) ∧
      (threat_only = true →
        ∀ q, spot_search_threat b start c increment_x increment_y threat_only
            free_only = some q →
          ∃ e, get_piece b q = some e) ∧
      (in_bounds b ⟨start.x_coord + increment_x, start.y_coord + increment_y⟩ →
        (∀ piece,
          get_piece b ⟨start.x_coord + increment_x, start.y_coord + increment_y⟩ =
            some piece → free_only = false → piece.color ≠ c →
          spot_search_threat b start c increment_x increment_y threat_only free_only =
            some ⟨start.x_coord + increment_x, start.y_coord + increment_y⟩) ∧
        (get_piece b ⟨start.x_coord + increment_x, start.y_coord + increment_y⟩ =
            none → threat_only = false →
          spot_search_threat b start c increment_x increment_y threat_only free_only =
            some ⟨start.x_coord + increment_x, start.y_coord + increment_y⟩)) := by
  refine ⟨?_, ?_, ?_, ?_, ?_, ?_⟩
  · intro q h
    exact (spot_some_eq b start c increment_x increment_y threat_only free_only q h).1
  · intro hnin
    have hb : b.size ≤ start.x_coord + increment_x ∨
        b.size ≤ start.y_coord + increment_y ∨
        start.x_coord + increment_x < 0 ∨ start.y_coord + increment_y < 0 := by
      by_contra hcon
      push_neg at hcon
      exact hnin ⟨hcon.2.2.1, hcon.1, hcon.2.2.2, hcon.2.1⟩
    rw [spot_eq_def, if_pos hb]
  · intro piece hg hcol
    by_cases hb : b.size ≤ start.x_coord + increment_x ∨
        b.size ≤ start.y_coord + increment_y ∨
        start.x_coord + increment_x < 0 ∨ start.y_coord + increment_y < 0
    · rw [spot_eq_def, if_pos hb]
    · rw [spot_eq_occ b start c increment_x increment_y threat_only free_only piece
        hb hg]
      split_ifs with h1 h2
      · rfl
      · exact absurd hcol h2
      · rfl
  · intro hf q hsome
    obtain ⟨hq, hin⟩ :=
      spot_some_eq b start c increment_x increment_y threat_only free_only q hsome
    have hin2 : 0 ≤ start.x_coord + increment_x ∧
        start.x_coord + increment_x < b.size ∧ 0 ≤ start.y_coord + increment_y ∧
        start.y_coord + increment_y < b.size := by
      rw [hq] at hin; exact hin
    have hb : ¬(b.size ≤ start.x_coord + increment_x ∨
        b.size ≤ start.y_coord + increment_y ∨
        start.x_coord + increment_x < 0 ∨ start.y_coord + increment_y < 0) := by
      omega
    cases hg : get_piece b ⟨start.x_coord + increment_x,
        start.y_coord + increment_y⟩ with
    | some piece =>
      rw [spot_eq_occ b start c increment_x increment_y threat_only free_only piece
        hb hg, hf] at hsome
      simp at hsome
    | none => rw [hq]; exact hg
  · intro ht q hsome
    obtain ⟨hq, hin⟩ :=
      spot_some_eq b start c increment_x increment_y threat_only free_only q hsome
    have hin2 : 0 ≤ start.x_coord + increment_x ∧
        start.x_coord + increment_x < b.size ∧ 0 ≤ start.y_coord + increment_y ∧
        start.y_coord + increment_y < b.size := by
      rw [hq] at hin; exact hin
    have hb : ¬(b.size ≤ start.x_coord + increment_x ∨
        b.size ≤ start.y_coord + increment_y ∨
        start.x_coord + increment_x < 0 ∨ start.y_coord + increment_y < 0) := by
      omega
    cases hg : get_piece b ⟨start.x_coord + increment_x,
        start.y_coord + increment_y⟩ with
    | some piece => exact ⟨piece, by rw [hq]; exact hg⟩
    | none =>
      rw [spot_eq_empty b start c increment_x increment_y threat_only free_only
        hb hg, ht] at hsome
      simp at hsome
  · intro hin
    have hin2 : 0 ≤ start.x_coord + increment_x ∧
        start.x_coord + increment_x < b.size ∧ 0 ≤ start.y_coord + increment_y ∧
        start.y_coord + increment_y < b.size := hin
    have hb : ¬(b.size ≤ start.x_coord + increment_x ∨
        b.size ≤ start.y_coord + increment_y ∨
        start.x_coord + increment_x < 0 ∨ start.y_coord + increment_y < 0) := by
      omega
    constructor
    · intro piece hg hf hc
      rw [spot_eq_occ b start c increment_x increment_y threat_only free_only piece
        hb hg, hf]
      simp [hc]
    · intro hg ht
      rw [spot_eq_empty b start c increment_x increment_y threat_only free_only
        hb hg, ht]
      simp

/-- C7 evaluated: the probe past the corner returns nothing on the empty
board, and the diagonal probe next to the Black rook on the pin fixture
returns exactly that enemy square. -/
theorem spot_search_threat_spec_witness :
    spot_search_threat empty_board ⟨7, 7⟩ Color.white 1 1 false false = none ∧
      spot_search_threat pin_board ⟨3, 6⟩ Color.white 1 1 false false =
        some ⟨4, 7⟩ := by
  constructor
  · exact (spot_search_threat_spec empty_board ⟨7, 7⟩ Color.white 1 1
      false false).2.1 (by decide)
  · exact ((spot_search_threat_spec pin_board ⟨3, 6⟩ Color.white 1 1
      false false).2.2.2.2.2 (by decide)).1
      ⟨PieceType.rook, Color.black, ⟨4, 7⟩, false⟩ (by decide) rfl (by decide)

end Chess
